import Mathlib

/-!
A verification development for the monom schema layer (a typed-schema layer
over a document store).  The Python sources are shallowly embedded: each
definition below mirrors one function of the repository (`fields.py`,
`model.py`, `mongo.py`, `utils.py`), with Python dicts rendered as ordered
association lists, the `Missing` sentinel as an explicit value constructor,
and exceptions as `Except String`.
-/

namespace Monom

/-- Values of the dynamic (Python / BSON) universe the library operates on.
`vMissing` is the `Missing` sentinel; `vDoc` is a dict-like mapping whose
boolean records the hidden `_skip_validate` marker that
`EmbeddedField.convert` stashes on already-clean data; `vInst` is a
materialized model instance (`isinstance(obj, self.model)` is rendered as a
model-identifier comparison); `vOpaque` stands for values the claims never
inspect (`ObjectId`, `datetime`, ...). -/
inductive PyVal where
  | vMissing
  | vNone
  | vInt (n : Int)
  | vStr (s : String)
  | vBool (b : Bool)
  | vList (xs : List PyVal)
  | vDoc (skipValidate : Bool) (entries : List (String × PyVal))
  | vInst (modelId : Nat) (data : List (String × PyVal))
  | vOpaque (id : Nat)

/-- `obj.get(k, _missing)` on an ordered dict (first binding wins, as dict
keys are unique in Python). -/
def dictGet (entries : List (String × PyVal)) (k : String) : PyVal :=
  match entries with
  | [] => .vMissing
  | (k', v) :: rest => if k' = k then v else dictGet rest k

/-- `d[k] = v` on an ordered dict: replace in place if the key exists,
otherwise append. -/
def dictSet (entries : List (String × PyVal)) (k : String) (v : PyVal) :
    List (String × PyVal) :=
  match entries with
  | [] => [(k, v)]
  | (k', v') :: rest => if k' = k then (k', v) :: rest else (k', v') :: dictSet rest k v

/-- `d.pop(k, None)`-style removal of the first binding of `k`. -/
def dictPop (entries : List (String × PyVal)) (k : String) : List (String × PyVal) :=
  match entries with
  | [] => []
  | (k', v') :: rest => if k' = k then rest else (k', v') :: dictPop rest k

/-- The per-field state of `Field.__init__`: store key (`name`), requiredness,
default, converter, validator.  A default of `none` is the `_missing`
sentinel default; zero-argument default producers are represented by the
value they produce. -/
structure FieldAttrs where
  name : String
  required : Bool
  default : Option PyVal
  converter : Option (PyVal → PyVal)
  validator : Option (PyVal → Bool)

/-- The primitive field classes (their `expected_types`). -/
inductive LeafKind where
  | strK
  | intK
  | boolK
  | anyK

/-- The field-class hierarchy of `fields.py` restricted to what the claims
exercise: a primitive field, a plain `ListField`, a plain `DictField`, an
`EmbeddedField` (with the nested model's ordered declared-name → field map)
and an `ArrayField` wrapping one element field. -/
inductive FieldSpec where
  | leaf (attrs : FieldAttrs) (kind : LeafKind)
  | listF (attrs : FieldAttrs)
  | dictF (attrs : FieldAttrs)
  | embeddedF (attrs : FieldAttrs) (modelId : Nat) (fields : List (String × FieldSpec))
  | arrayF (attrs : FieldAttrs) (elem : FieldSpec)

def FieldSpec.attrs : FieldSpec → FieldAttrs
  | .leaf a _ => a
  | .listF a => a
  | .dictF a => a
  | .embeddedF a _ _ => a
  | .arrayF a _ => a

/-- `Field.convert`: materialize the default when the value is missing, then
apply the converter when the value is present. -/
def baseConvert (a : FieldAttrs) (v : PyVal) : PyVal :=
  let v1 : PyVal :=
    match v, a.default with
    | .vMissing, some d => d
    | _, _ => v
  match v1, a.converter with
  | .vMissing, _ => .vMissing
  | w, some f => f w
  | w, none => w

/-- The second loop of `EmbeddedField.convert`: keys of the input that do not
name a declared field are passed through into the output. -/
def addExtras (declaredNames : List String) (obj : List (String × PyVal))
    (rv : List (String × PyVal)) : List (String × PyVal) :=
  obj.foldl (fun acc p => if declaredNames.contains p.1 then acc else dictSet acc p.1 p.2) rv

/-- The store step of the field loop of `EmbeddedField.convert`:
`if value is not _missing: rv[field.name] = value`. -/
def rvStore (acc : List (String × PyVal)) (name : String) : PyVal → List (String × PyVal)
  | .vMissing => acc
  | w => dictSet acc name w

mutual

/-- `convert` of each field class.  `EmbeddedField.convert` short-circuits on
a materialized instance of its own model, handing back the instance's clean
data marked `_skip_validate`. -/
def convertField (fs : FieldSpec) (v : PyVal) : Except String PyVal :=
  match fs, v with
  | .leaf a _, v => .ok (baseConvert a v)
  | .listF a, v => .ok (baseConvert a v)
  | .dictF a, v => .ok (baseConvert a v)
  | .arrayF a elem, v =>
    match baseConvert a v with
    | .vMissing => .ok .vMissing
    | .vList xs => do
        let ys ← convertElems elem xs
        pure (.vList ys)
    | _ => .error "must be a list-like object"
  | .embeddedF a mid fields, .vInst mid' data =>
    if mid' = mid then .ok (.vDoc true data)
    else convertEmbedded fields (baseConvert a (.vInst mid' data))
  | .embeddedF a _ fields, v => convertEmbedded fields (baseConvert a v)

/-- Body of `EmbeddedField.convert` after `super().convert`: require a
mapping, convert every declared field into a fresh dict keyed by the field's
store key, then pass undeclared input keys through unchanged. -/
def convertEmbedded (fields : List (String × FieldSpec)) (obj : PyVal) :
    Except String PyVal :=
  match obj with
  | .vMissing => .ok .vMissing
  | .vDoc _ entries => do
      let rv ← convertFields fields entries []
      pure (.vDoc false (addExtras (fields.map Prod.fst) entries rv))
  | _ => .error "must be a dict-like object"

/-- The `for name, field in fields.items()` loop of `EmbeddedField.convert`:
`value = field.convert(obj.get(name, _missing)); if value is not _missing:
rv[field.name] = value`. -/
def convertFields (fields : List (String × FieldSpec))
    (obj : List (String × PyVal)) (acc : List (String × PyVal)) :
    Except String (List (String × PyVal)) :=
  match fields with
  | [] => .ok acc
  | (declName, f) :: rest => do
      let value ← convertField f (dictGet obj declName)
      convertFields rest obj (rvStore acc f.attrs.name value)

/-- The element loop of `ArrayField.convert`. -/
def convertElems (elem : FieldSpec) (xs : List PyVal) : Except String (List PyVal) :=
  match xs with
  | [] => .ok []
  | x :: rest => do
      let y ← convertField elem x
      let ys ← convertElems elem rest
      pure (y :: ys)

end

/-- The `expected_types` tuples of the primitive field classes
(Python's `bool` is a subclass of `int`, so `IntField` accepts booleans;
`AnyField.expected_types` is `(object,)`). -/
def leafExpects : LeafKind → PyVal → Bool
  | .strK, .vStr _ => true
  | .intK, .vInt _ => true
  | .intK, .vBool _ => true
  | .boolK, .vBool _ => true
  | .anyK, _ => true
  | _, _ => false

/-- `ListField.expected_types = (MutableSequence, tuple)`. -/
def isListLike : PyVal → Bool
  | .vList _ => true
  | _ => false

/-- `DictField.expected_types = (MutableMapping,)`. -/
def isMapping : PyVal → Bool
  | .vDoc _ _ => true
  | _ => false

/-- `Field.validate`, instrumented: a successful run returns how many checks
(`validate_type` and `validate_fn` invocations) it performed, so that the
pre-validated short-circuit ("no checks run") is observable. -/
def validateBase (a : FieldAttrs) (expects : PyVal → Bool) (v : PyVal) :
    Except String Nat :=
  match v with
  | .vMissing => if a.required then .error "field is missing" else .ok 0
  | w =>
    if expects w then
      match a.validator with
      | some f => if f w then .ok 2 else .error "not accepted by validator"
      | none => .ok 1
    else .error "type mismatch"

mutual

/-- `validate` of each field class, instrumented with the number of checks
performed.  `EmbeddedField.validate` returns at once (zero checks) when the
value carries the `_skip_validate` marker. -/
def validateField (fs : FieldSpec) (v : PyVal) : Except String Nat :=
  match fs, v with
  | .leaf a k, v => validateBase a (leafExpects k) v
  | .listF a, v => validateBase a isListLike v
  | .dictF a, v => validateBase a isMapping v
  | .arrayF a elem, v => do
      let n ← validateBase a isListLike v
      match v with
      | .vList xs => do
          let m ← validateElems elem xs
          pure (n + m)
      | _ => pure n
  | .embeddedF _ _ _, .vDoc true _ => .ok 0
  | .embeddedF a _ fields, v => do
      let n ← validateBase a isMapping v
      match v with
      | .vDoc _ entries => do
          let m ← validateFields fields entries
          pure (n + m)
      | _ => pure n

/-- The per-field loop of `EmbeddedField.validate`: each declared field is
validated against `obj.get(field.name, _missing)` (the store key). -/
def validateFields (fields : List (String × FieldSpec))
    (obj : List (String × PyVal)) : Except String Nat :=
  match fields with
  | [] => .ok 0
  | (_, f) :: rest => do
      let n ← validateField f (dictGet obj f.attrs.name)
      let m ← validateFields rest obj
      pure (n + m)

/-- The element loop of `ArrayField.validate`. -/
def validateElems (elem : FieldSpec) (xs : List PyVal) : Except String Nat :=
  match xs with
  | [] => .ok 0
  | x :: rest => do
      let n ← validateField elem x
      let m ← validateElems elem rest
      pure (n + m)

end

/-! ## Mutation tracking (`model.py`)

An instance's tracker view: `_modified_fields` and `_deleted_fields` are
`Option (List String)` because both start out `None` (`__init__`) and are
lazily initialised to empty sets; `nested` are the cached nested
`EmbeddedModel` instances found in `instance.__dict__`, in insertion
order. -/
inductive TrackedDoc where
  | mk (modified : Option (List String)) (deleted : Option (List String))
       (nested : List (String × TrackedDoc))

def TrackedDoc.modified : TrackedDoc → Option (List String)
  | .mk m _ _ => m

def TrackedDoc.deleted : TrackedDoc → Option (List String)
  | .mk _ d _ => d

def TrackedDoc.nested : TrackedDoc → List (String × TrackedDoc)
  | .mk _ _ n => n

/-- Python truthiness of a possibly-`None` set. -/
def truthy : Option (List String) → Bool
  | some (_ :: _) => true
  | _ => false

mutual

/-- `BaseModel._clear_tracked_fields`.  The source reads

    if self._modified_fields: self._modified_fields.clear()
    if self._modified_fields: self._deleted_fields.clear()

so the second guard re-tests `_modified_fields` (just cleared) rather than
`_deleted_fields`; the embedding reproduces that guard verbatim. -/
def clearTracked : TrackedDoc → TrackedDoc
  | .mk m d nested =>
    let m' := if truthy m then some [] else m
    let d' := if truthy m' then some [] else d
    .mk m' d' (clearNested nested)

/-- The `for value in self.__dict__.values(): if isinstance(value,
EmbeddedModel): value._clear_tracked_fields()` loop. -/
def clearNested : List (String × TrackedDoc) → List (String × TrackedDoc)
  | [] => []
  | (k, t) :: rest => (k, clearTracked t) :: clearNested rest

end

mutual

/-- The recursive `combine` helper of `BaseModel._combine_tracked_fields`:
prefix this instance's tracked names with `prev`, then recurse into every
cached nested instance whose field name is not itself tracked wholesale.
`useModified` selects `_modified_fields` versus `_deleted_fields`. -/
def combineAux (useModified : Bool) (prev : String) : TrackedDoc → List String
  | .mk m d nested =>
    let fields := (if useModified then m else d).getD []
    fields.map (fun n => prev ++ n) ++ combineNested useModified prev fields nested

def combineNested (useModified : Bool) (prev : String) (fields : List String) :
    List (String × TrackedDoc) → List String
  | [] => []
  | (k, t) :: rest =>
    (if k ∈ fields then [] else combineAux useModified (prev ++ k ++ ".") t) ++
      combineNested useModified prev fields rest

end

/-- `BaseModel._combine_tracked_fields`: the pair (modified dotted paths,
deleted dotted paths). -/
def combineTrackedFields (t : TrackedDoc) : List String × List String :=
  (combineAux true "" t, combineAux false "" t)

/-! The instance-level tracker updates of `__setattr__` / `__delattr__`. -/

/-- The two tracked sets of one instance (`None` until
`_init_tracked_fields` runs). -/
structure TrackState where
  modified : Option (List String)
  deleted : Option (List String)

/-- `set.add`: sets are rendered as duplicate-free lists in insertion
order. -/
def setAdd (xs : List String) (n : String) : List String :=
  if n ∈ xs then xs else xs ++ [n]

/-- `set.discard`. -/
def setDiscard (xs : List String) (n : String) : List String :=
  xs.filter (fun x => x ≠ n)

/-- The tracking part of `BaseModel.__setattr__`: when `name` is a declared
field, initialise the sets, add `name` to the modified set and discard it
from the deleted set. -/
def trackSet (fieldOrder : List String) (st : TrackState) (name : String) : TrackState :=
  if name ∈ fieldOrder then
    ⟨some (setAdd (st.modified.getD []) name), some (setDiscard (st.deleted.getD []) name)⟩
  else st

/-- The tracking part of `BaseModel.__delattr__`. -/
def trackDel (fieldOrder : List String) (st : TrackState) (name : String) : TrackState :=
  if name ∈ fieldOrder then
    ⟨some (setDiscard (st.modified.getD []) name), some (setAdd (st.deleted.getD []) name)⟩
  else st

/-- One attribute mutation on a document instance. -/
inductive FieldOp where
  | setF (name : String)
  | delF (name : String)

/-- A finite sequence of field set/delete operations applied to the
tracker. -/
def applyOps (fieldOrder : List String) (st : TrackState) : List FieldOp → TrackState
  | [] => st
  | .setF n :: rest => applyOps fieldOrder (trackSet fieldOrder st n) rest
  | .delF n :: rest => applyOps fieldOrder (trackDel fieldOrder st n) rest

/-! ## Document instance data (`model.py` + `fields.py` descriptors) -/

/-- The attributes the root `EmbeddedField().init_root(cls)` carries: no
name, not required, no default, no converter, no validator. -/
def rootAttrs : FieldAttrs := ⟨"", false, none, none, none⟩

/-- `BaseModel._from_dirty_data` restricted to its data pipeline: run the
root embedded field's `convert` over the raw input, then `validate` the
result; the instance's `_data` is the converted mapping.  (The property
setter loop is empty for models without Python `property` attributes.) -/
def fromDirtyData (modelId : Nat) (fields : List (String × FieldSpec))
    (raw : PyVal) : Except String (List (String × PyVal)) := do
  let clean ← convertField (.embeddedF rootAttrs modelId fields) raw
  match clean with
  | .vDoc _ entries => do
      let _ ← validateField (.embeddedF rootAttrs modelId fields) clean
      pure entries
  | _ => .error "converted data is not a mapping"

/-- `Field.__set__` on the instance's `_data`: convert, validate, then store
under the field's store key (`dk['_data'][name] = value`).  On a conversion
or validation error the data is left untouched. -/
def fieldSet (fs : FieldSpec) (data : List (String × PyVal)) (v : PyVal) :
    Except String (List (String × PyVal)) := do
  let v' ← convertField fs v
  let _ ← validateField fs v'
  pure (dictSet data fs.attrs.name v')

/-- An instance's tracker together with its clean `_data`. -/
structure InstState where
  tracker : TrackState
  data : List (String × PyVal)

/-- `BaseModel.__setattr__` on a declared field: the tracker is updated
first (`_modified_fields.add`, `_deleted_fields.discard`) and only then does
the descriptor's `__set__` convert/validate/store, so a rejected value
leaves the data unchanged but the tracker already updated. -/
def setAttr (fieldOrder : List String) (fs : FieldSpec) (attrName : String)
    (st : InstState) (v : PyVal) : InstState × Except String Unit :=
  let tr := trackSet fieldOrder st.tracker attrName
  match fieldSet fs st.data v with
  | .error e => (⟨tr, st.data⟩, .error e)
  | .ok data' => (⟨tr, data'⟩, .ok ())

/-! ## Document lifecycle (`mongo.py`) -/

/-- `MongoModel._state`. -/
inductive DocState where
  | beforeSave
  | afterSave
  | fromDocument
  | deleted
deriving DecidableEq

/-- The store commands `save`/`delete` hand to the collection. -/
inductive StoreOp where
  | insertOne
  | updateOne
  | deleteOne
deriving DecidableEq

/-- The lifecycle-relevant state of a `MongoModel` instance: its `_state`,
its primary key (`self.pk`, i.e. `_data.get('_id')`), and its tracker. -/
structure MongoDoc where
  state : DocState
  pk : Option PyVal
  tracker : TrackedDoc

/-- `MongoModel.save`: insert on a never-saved document (the driver fills in
`_id`), partial (`$set`/`$unset`) or full update on a saved one — refusing
when there is no `_id` — and a `RuntimeError` on a deleted one.  The
update-document payload itself is built from `_combine_tracked_fields` and
the clean data; only the kind of command issued is recorded here. -/
def save (d : MongoDoc) (fullUpdate : Bool) : Except String (MongoDoc × List StoreOp) :=
  match d.state with
  | .beforeSave =>
      .ok (⟨.afterSave, some (d.pk.getD (.vOpaque 0)), clearTracked d.tracker⟩, [.insertOne])
  | .afterSave | .fromDocument =>
      if d.pk.isNone then .error "The document without an _id cannot be saved."
      else
        let _ := if fullUpdate then ([], []) else combineTrackedFields d.tracker
        .ok (⟨d.state, d.pk, clearTracked d.tracker⟩, [.updateOne])
  | .deleted => .error "The document has been deleted."

/-- `MongoModel.delete`: refuse on a never-saved document or one without an
`_id`; otherwise issue `delete_one` and mark the state `deleted`.  (There is
no guard against an already-`deleted` state.) -/
def delete (d : MongoDoc) : Except String (MongoDoc × List StoreOp) :=
  if d.state = .beforeSave then .error "You cannot delete a document that was not saved."
  else if d.pk.isNone then .error "The document without an _id cannot be deleted."
  else .ok (⟨.deleted, d.pk, clearTracked d.tracker⟩, [.deleteOne])

/-! ## Dot-notation resolution (`mongo.py`) -/

/-- ASCII rendering of Python's `str.isdigit`. -/
def pyIsDigit (s : String) : Bool :=
  !s.data.isEmpty && s.data.all Char.isDigit

/-- ASCII rendering of Python's `str.isidentifier`. -/
def pyIsIdentifier (s : String) : Bool :=
  match s.data with
  | [] => false
  | c :: rest => (c.isAlpha || c = '_') && rest.all (fun c => c.isAlphanum || c = '_')

/-- `MongoModel._is_array_placeholder`: `name == '$' or
(name.startswith('$[') and name.endswith(']'))`. -/
def isArrayPlaceholder (s : String) : Bool :=
  s == "$" || (s.data.take 2 == ['$', '['] && s.data.getLast? == some ']')

/-- The fresh `AnyField()` the resolver returns for wildcard outcomes. -/
def anyFieldSpec : FieldSpec :=
  .leaf ⟨"", false, none, none, none⟩ .anyK

/-- The loop body of `MongoModel._parse_dot_notation` over the already-split
path segments, starting from the current field: an `AnyField` absorbs the
rest; an exact `DictField` accepts one identifier and yields `Any`; an exact
`ListField` accepts a digit/placeholder segment and yields `Any`; an
identifier descends into an `EmbeddedField`'s declared field (or warns and
yields `Any`); a digit/placeholder descends into an `ArrayField`'s element;
anything else is a parse error. -/
def parseDotKeys : FieldSpec → List String → Except String FieldSpec
  | field, [] => .ok field
  | .leaf a .anyK, _ :: _ =>
      let _ := a
      .ok anyFieldSpec
  | .dictF _, key :: _ =>
      if pyIsIdentifier key then .ok anyFieldSpec
      else .error "cannot parse: unexpected key after DictField"
  | .listF _, key :: _ =>
      if pyIsDigit key || isArrayPlaceholder key then .ok anyFieldSpec
      else .error "cannot parse: unexpected key after ListField"
  | field, key :: rest =>
      if pyIsIdentifier key then
        match field with
        | .embeddedF _ _ fields =>
          match fields.find? (fun p => p.1 = key) with
          | some (_, f) => parseDotKeys f rest
          | none => .ok anyFieldSpec
        | _ => .error "cannot parse: unexpected key"
      else if pyIsDigit key || isArrayPlaceholder key then
        match field with
        | .arrayF _ elem => parseDotKeys elem rest
        | _ => .error "cannot parse: unexpected key"
      else .error "cannot parse: not a valid identifier"

/-- `MongoModel._parse_dot_notation`: split on `'.'` and walk from the root
embedded field built over the model's declared fields. -/
def parseDotNotation (modelId : Nat) (fields : List (String × FieldSpec))
    (name : String) : Except String FieldSpec :=
  parseDotKeys (.embeddedF rootAttrs modelId fields) (name.splitOn ".")

/-! ## Meta alias processing (`ModelType._process_meta`) -/

/-- The final store key an alias list assigns to a declared field: the last
`fields[field_name].name = alias` assignment wins. -/
def lastAlias (aliases : List (String × String)) (n : String) : Option String :=
  aliases.foldl (fun acc p => if p.1 = n then some p.2 else acc) none

/-- The alias part of `ModelType._process_meta`: reject when the number of
aliases differs from the number of distinct alias targets
(`len(aliases) != len({alias[1] for alias in aliases})`), reject an alias
whose field is not declared, and otherwise return the declared-name →
store-key assignment (a field keeps its declared name unless aliased). -/
def processMetaAliases (declared : List String) (aliases : List (String × String)) :
    Except String (List (String × String)) :=
  if aliases.length ≠ (aliases.map Prod.snd).dedup.length then
    .error "Duplicated alias found"
  else if aliases.all (fun p => declared.contains p.1) then
    .ok (declared.map (fun n => (n, (lastAlias aliases n).getD n)))
  else .error "field is not defined"

/-! ## Index normalization and reconciliation (`utils.py`, `mongo.py`) -/

/-- Values living in index-specification dicts: scalars, a 2-tuple
`(key, direction)`, and lists. -/
inductive IdxVal where
  | b (x : Bool)
  | i (n : Int)
  | s (x : String)
  | pair (k : String) (d : Int)
  | lst (xs : List IdxVal)

/-- An index document (a declared mapping-form spec, a normalized spec, or a
stored index as returned by `list_indexes`). -/
abbrev IdxDoc := List (String × IdxVal)

/-- One entry of the `Meta.indexes` list: a plain str/tuple/list spec or a
mapping-form spec with options. -/
inductive DeclIndex where
  | simple (v : IdxVal)
  | mapping (entries : IdxDoc)

def alistGet? {α : Type} (l : List (String × α)) (k : String) : Option α :=
  match l with
  | [] => none
  | (k', v) :: rest => if k' = k then some v else alistGet? rest k

def alistSet {α : Type} (l : List (String × α)) (k : String) (v : α) :
    List (String × α) :=
  match l with
  | [] => [(k, v)]
  | (k', v') :: rest => if k' = k then (k', v) :: rest else (k', v') :: alistSet rest k v

/-- `d.pop(k, ...)`: remove the binding of `k`. -/
def alistErase {α : Type} (l : List (String × α)) (k : String) :
    List (String × α) :=
  match l with
  | [] => []
  | (k', v') :: rest => if k' = k then rest else (k', v') :: alistErase rest k

/-- `d.setdefault(k, v)`. -/
def alistSetdefault {α : Type} (l : List (String × α)) (k : String) (v : α) :
    List (String × α) :=
  if (alistGet? l k).isSome then l else l ++ [(k, v)]

mutual

/-- `normalize` inside `normalize_indexes`: a string becomes `[(s, 1)]`, a
`(key, direction)` pair with direction `±1` stands alone, a list is the
concatenation (`reduce(add, ...)`, which raises on an empty list), anything
else is a `ValueError`. -/
def normalizeVal : IdxVal → Except String (List (String × Int))
  | .s str => .ok [(str, 1)]
  | .pair k d =>
    if d = 1 ∨ d = -1 then .ok [(k, d)]
    else .error "cannot parse to standard index format"
  | .lst xs => do
      let ys ← normalizeList xs
      match ys with
      | [] => .error "reduce of empty sequence"
      | _ => .ok ys.flatten
  | _ => .error "cannot parse to standard index format"

/-- The comprehension `[normalize(x) for x in idx]`. -/
def normalizeList : List IdxVal → Except String (List (List (String × Int)))
  | [] => .ok []
  | x :: rest => do
      let y ← normalizeVal x
      let ys ← normalizeList rest
      pure (y :: ys)

end

/-- Python `str.strip('_')`. -/
def stripUnderscores (s : String) : List Char :=
  ((s.data.dropWhile (fun c => c = '_')).reverse.dropWhile (fun c => c = '_')).reverse

/-- The word-splitting loop of `to_camelcase` (split on runs of `_`). -/
def camelWordsGo : List Char → Option Char → List Char → List (List Char) →
    List (List Char)
  | [], _, cur, arr => arr ++ [cur]
  | c :: rest, prev, cur, arr =>
    if c = '_' ∧ prev ≠ some '_' then camelWordsGo rest (some c) [] (arr ++ [cur])
    else if c ≠ '_' then camelWordsGo rest (some c) (cur ++ [c]) arr
    else camelWordsGo rest (some c) cur arr

/-- `str.capitalize` (`string.capwords` degenerates to this on the
whitespace-free chunks `to_camelcase` produces). -/
def pyCapitalize (w : List Char) : String :=
  match w with
  | [] => ""
  | c :: rest => String.mk (c.toUpper :: rest.map Char.toLower)

/-- `to_camelcase` from `utils.py`. -/
def toCamelcase (s : String) : String :=
  let s1 := stripUnderscores s
  if s1.isEmpty then ""
  else
    match camelWordsGo s1 none [] [] with
    | [] => ""
    | w :: ws => String.mk (w.map Char.toLower) ++ String.join (ws.map pyCapitalize)

/-- `hump_keys` on an index-options dict (its values are scalar option
values, which `walk_keys` leaves unchanged). -/
def humpKeysIdx (entries : IdxDoc) : IdxDoc :=
  entries.map (fun p => (toCamelcase p.1, p.2))

/-- `normalize_indexes`: the list of normalized index documents, together
with the declared list *as the call leaves it* — `index.pop('key')` mutates
the very dict stored in `Meta.indexes`, so mapping-form entries come back
without their `'key'`. -/
def normalizeIndexes : List DeclIndex → Except String (List DeclIndex × List IdxDoc)
  | [] => .ok ([], [])
  | .simple v :: rest =>
    match v with
    | .s _ | .pair _ _ | .lst _ => do
        let key ← normalizeVal v
        let (rest', rv) ← normalizeIndexes rest
        .ok (.simple v :: rest',
             [("key", .lst (key.map (fun p => .pair p.1 p.2)))] :: rv)
    | _ => do
        let (rest', rv) ← normalizeIndexes rest
        .ok (.simple v :: rest', rv)
  | .mapping entries :: rest =>
    match alistGet? entries "key" with
    | none => .error "KeyError: key"
    | some kv0 => do
        let key ← normalizeVal kv0
        let entries' := alistErase entries "key"
        let doc := alistSet (humpKeysIdx entries') "key"
          (.lst (key.map (fun p => .pair p.1 p.2)))
        let (rest', rv) ← normalizeIndexes rest
        .ok (.mapping entries' :: rest', doc :: rv)

/-- `default_index_name` over a normalized key list. -/
def defaultIndexName (key : List (String × Int)) : String :=
  "_".intercalate (key.map (fun p => p.1 ++ "_" ++ toString p.2))

/-- Read a normalized `'key'` value back as a pair list. -/
def getKeyPairs : IdxVal → Option (List (String × Int))
  | .lst xs => xs.mapM (fun v => match v with | .pair k d => some (k, d) | _ => none)
  | _ => none

/-- The `'name'` of a stored index document. -/
def idxName (d : IdxDoc) : Option String :=
  match alistGet? d "name" with
  | some (.s nm) => some nm
  | _ => none

/-- `collection.create_index(key, **options)`: the store records the key,
a server version, the (possibly defaulted) name and the remaining
options. -/
def createIndex (st : List IdxDoc) (key : List (String × Int)) (opts : IdxDoc) :
    List IdxDoc :=
  let nameVal := (alistGet? opts "name").getD (.s (defaultIndexName key))
  st ++ [[("key", .lst (key.map (fun p => .pair p.1 p.2))), ("v", .i 2),
          ("name", nameVal)] ++ alistErase opts "name"]

/-- `collection.drop_index(name)`. -/
def dropIndex (st : List IdxDoc) (nm : String) : List IdxDoc :=
  st.filter (fun d => idxName d ≠ some nm)

/-- The `collMod` command used to adjust a TTL index in place. -/
def collModTTL (st : List IdxDoc) (nm : String) (ttl : IdxVal) : List IdxDoc :=
  st.map (fun d => if idxName d = some nm then alistSet d "expireAfterSeconds" ttl else d)

mutual

/-- `have_same_shape` on index option values (`1 == 1.0`-style cross-type
equalities play no role for the bool/int/str options compared here). -/
def sameShapeVal : IdxVal → IdxVal → Bool
  | .b x, .b y => x == y
  | .i x, .i y => x == y
  | .s x, .s y => x == y
  | .pair k1 d1, .pair k2 d2 => k1 == k2 && d1 == d2
  | .lst xs, .lst ys => xs.length == ys.length && sameShapeList xs ys
  | _, _ => false

def sameShapeList : List IdxVal → List IdxVal → Bool
  | [], _ => true
  | _ :: _, [] => false
  | x :: xs, y :: ys => sameShapeVal x y && sameShapeList xs ys

end

/-- `have_same_shape` on two option dicts: equal key sets and
recursively same-shaped values. -/
def sameShapeDoc (d1 d2 : IdxDoc) : Bool :=
  (d1.map Prod.fst).all (fun k => (d2.map Prod.fst).contains k) &&
  (d2.map Prod.fst).all (fun k => (d1.map Prod.fst).contains k) &&
  (d1.map Prod.fst).all (fun k =>
    match alistGet? d1 k, alistGet? d2 k with
    | some v1, some v2 => sameShapeVal v1 v2
    | _, _ => false)

/-- `new_ttl == old_ttl` (both are ints or `None`). -/
def ttlEq : Option IdxVal → Option IdxVal → Bool
  | none, none => true
  | some v1, some v2 => sameShapeVal v1 v2
  | _, _ => false

/-- One iteration of the "modify existing indexes" loop of
`MongoModel._build_indexes`: no-op when options and TTL agree, `collMod`
when only the TTL differs and both sides specify one, otherwise drop and
recreate.  Returns the updated store and the number of store mutations
issued. -/
def reconcilePair (acc : List IdxDoc × Nat) (pr : IdxDoc × IdxDoc) :
    Except String (List IdxDoc × Nat) := do
  let (st, muts) := acc
  let (newIdx0, oldIdx0) := pr
  match alistGet? newIdx0 "key" with
  | none => .error "KeyError: key"
  | some keyV =>
    match getKeyPairs keyV with
    | none => .error "malformed key"
    | some key =>
      let newIdx1 := alistSetdefault (alistErase newIdx0 "key") "name"
        (.s (defaultIndexName key))
      let oldIdx1 := alistErase (alistErase (alistErase oldIdx0 "key") "v") "ns"
      let newTtl := alistGet? newIdx1 "expireAfterSeconds"
      let newIdx2 := alistErase newIdx1 "expireAfterSeconds"
      let oldTtl := alistGet? oldIdx1 "expireAfterSeconds"
      let oldIdx2 := alistErase oldIdx1 "expireAfterSeconds"
      let same := sameShapeDoc newIdx2 oldIdx2
      if same && ttlEq newTtl oldTtl then
        .ok (st, muts)
      else if same && newTtl.isSome && oldTtl.isSome then
        match idxName newIdx2, newTtl with
        | some nm, some t => .ok (collModTTL st nm t, muts + 1)
        | _, _ => .error "KeyError: name"
      else
        let newIdx3 :=
          match newTtl with
          | some t => alistSet newIdx2 "expireAfterSeconds" t
          | none => newIdx2
        match idxName oldIdx2 with
        | some oldNm => .ok (createIndex (dropIndex st oldNm) key newIdx3, muts + 2)
        | none => .error "KeyError: name"

/-- `MongoModel._build_indexes` against an explicit store state: normalize
the declared indexes (mutating `Meta.indexes` in the process), key declared
and stored indexes by their default index name, create the missing ones,
drop the extra ones (sparing `_id_`), and reconcile the rest.  Returns the
declared list as the run leaves it, the resulting store, and the number of
store mutations issued. -/
def buildIndexes (declared : List DeclIndex) (store : List IdxDoc) :
    Except String (List DeclIndex × List IdxDoc × Nat) := do
  let (declared', normed) ← normalizeIndexes declared
  let old ← store.mapM (fun d =>
    match (alistGet? d "key").bind getKeyPairs with
    | some k => Except.ok (defaultIndexName k, d)
    | none => Except.error "KeyError: key")
  let neu ← normed.mapM (fun d =>
    match (alistGet? d "key").bind getKeyPairs with
    | some k => Except.ok (defaultIndexName k, d)
    | none => Except.error "KeyError: key")
  let oldNames := old.map Prod.fst
  let newNames := neu.map Prod.fst
  let missing := (neu.filter (fun p => !oldNames.contains p.1)).map Prod.snd
  let extra := (old.filter (fun p => !newNames.contains p.1)).map Prod.snd
  let existing := (neu.filter (fun p => oldNames.contains p.1)).filterMap
    (fun p => (alistGet? old p.1).map (fun od => (p.2, od)))
  -- create new indexes
  let st1 ← missing.foldlM (fun st idx =>
    match (alistGet? idx "key").bind getKeyPairs with
    | some key => Except.ok (createIndex st key (alistErase idx "key"))
    | none => Except.error "KeyError: key") store
  -- drop old indexes (the primary-key index `_id_` is spared)
  let st2 ← extra.foldlM (fun st idx =>
    match idxName idx with
    | some nm => Except.ok (if nm ≠ "_id_" then dropIndex st nm else st)
    | none => Except.error "KeyError: name") st1
  let dropCount := (extra.filterMap idxName).countP (fun nm => nm ≠ "_id_")
  -- modify existing indexes
  let (st3, muts) ← existing.foldlM reconcilePair (st2, 0)
  .ok (declared', st3, missing.length + dropCount + muts)

/-! ## Predicates for the conversion fixed-point analysis -/

/-- Pairwise-distinct keys (automatic for Python dicts). -/
def keysNodupS : List String → Bool
  | [] => true
  | k :: rest => !rest.contains k && keysNodupS rest

mutual

/-- Plain data: the shape raw inputs built from ordinary dicts/lists have —
no materialized model instances, no `_skip_validate` markers, and
duplicate-free keys in every nested mapping. -/
def plainVal : PyVal → Bool
  | .vList xs => plainListVals xs
  | .vDoc skip entries =>
    !skip && keysNodupS (entries.map Prod.fst) && plainEntries entries
  | .vInst _ _ => false
  | _ => true

def plainListVals : List PyVal → Bool
  | [] => true
  | x :: rest => plainVal x && plainListVals rest

def plainEntries : List (String × PyVal) → Bool
  | [] => true
  | (_, v) :: rest => plainVal v && plainEntries rest

end

/-- A well-behaved converter: on proper (non-missing) values it returns a
proper value and is idempotent. -/
def ConvOk : Option (PyVal → PyVal) → Prop
  | none => True
  | some f => ∀ v, v ≠ .vMissing → f v ≠ .vMissing ∧ f (f v) = f v

mutual

/-- The hypotheses of the amended conversion fixed-point: every attached
converter sits on a primitive/plain field and is idempotent, composite
fields carry no converter and only plain defaults, every store key equals
its declared name (no aliases), and declared names are duplicate-free. -/
def Fixable : FieldSpec → Prop
  | .leaf a _ => ConvOk a.converter
  | .listF a => ConvOk a.converter
  | .dictF a => ConvOk a.converter
  | .arrayF a elem =>
    a.converter = none ∧ (∀ d, a.default = some d → plainVal d = true) ∧ Fixable elem
  | .embeddedF a _ fields =>
    a.converter = none ∧ (∀ d, a.default = some d → plainVal d = true) ∧
      keysNodupS (fields.map Prod.fst) = true ∧ FixableFields fields

def FixableFields : List (String × FieldSpec) → Prop
  | [] => True
  | (n, f) :: rest => f.attrs.name = n ∧ Fixable f ∧ FixableFields rest

end

/-- The one optional output binding a declared field contributes. -/
def singOut (name : String) : PyVal → List (String × PyVal)
  | .vMissing => []
  | w => [(name, w)]

/-- The declared-fields part of `EmbeddedField.convert` written without the
`rv` accumulator: the output is the in-order concatenation of one optional
binding per declared field.  Coincides with `convertFields` when the store
keys are fresh and duplicate-free (proved below); used to reason about the
rebuilt document. -/
def fieldsOut (fields : List (String × FieldSpec)) (obj : List (String × PyVal)) :
    Except String (List (String × PyVal)) :=
  match fields with
  | [] => .ok []
  | (declName, f) :: rest => do
      let y ← convertField f (dictGet obj declName)
      let r ← fieldsOut rest obj
      .ok (singOut f.attrs.name y ++ r)

/-- The non-idempotent converter of the C3 counterexample schema. -/
def incr : PyVal → PyVal :=
  fun v =>
    match v with
    | .vInt n => .vInt (n + 1)
    | w => w

/-- The mutual-exclusion invariant of the two tracked sets. -/
def Exclusive (st : TrackState) : Prop :=
  ∀ n, n ∈ st.modified.getD [] → n ∉ st.deleted.getD []

/-- The two-field schema (declared order `a`, `b`) used to exercise
`to_dict` ordering. -/
def c5Fields : List (String × FieldSpec) :=
  [("a", .leaf ⟨"a", false, none, none, none⟩ .intK),
   ("b", .leaf ⟨"b", false, none, none, none⟩ .intK)]

/-- The declared `Meta.indexes` list used to exercise `_build_indexes`: one
mapping-form specification with an option. -/
def c2Declared : List DeclIndex := [.mapping [("key", .s "a"), ("unique", .b true)]]

/-- A collection that starts out with only the mandatory primary-key
index. -/
def c2Store : List IdxDoc :=
  [[("key", .lst [.pair "_id" 1]), ("name", .s "_id_"), ("v", .i 2)]]

/-! ## Auxiliary lemmas about the tracker sets -/

theorem mem_setAdd {xs : List String} {n m : String} :
    m ∈ setAdd xs n ↔ m ∈ xs ∨ m = n := by
  unfold setAdd
  by_cases h : n ∈ xs
  · simp only [if_pos h]
    exact ⟨Or.inl, fun hc => hc.elim id (fun he => he ▸ h)⟩
  · simp [if_neg h]

theorem mem_setDiscard {xs : List String} {n m : String} :
    m ∈ setDiscard xs n ↔ m ∈ xs ∧ m ≠ n := by
  unfold setDiscard
  simp [List.mem_filter]

theorem exclusive_trackSet {fo : List String} {st : TrackState} {name : String}
    (h : Exclusive st) : Exclusive (trackSet fo st name) := by
  unfold trackSet
  split
  · intro n hm hd
    simp only [Option.getD_some] at hm hd
    rcases mem_setAdd.1 hm with hm' | rfl
    · exact h n hm' (mem_setDiscard.1 hd).1
    · exact (mem_setDiscard.1 hd).2 rfl
  · exact h

theorem exclusive_trackDel {fo : List String} {st : TrackState} {name : String}
    (h : Exclusive st) : Exclusive (trackDel fo st name) := by
  unfold trackDel
  split
  · intro n hm hd
    simp only [Option.getD_some] at hm hd
    rcases mem_setAdd.1 hd with hd' | rfl
    · exact h n (mem_setDiscard.1 hm).1 hd'
    · exact (mem_setDiscard.1 hm).2 rfl
  · exact h

theorem exclusive_applyOps {fo : List String} {ops : List FieldOp} {st : TrackState}
    (h : Exclusive st) : Exclusive (applyOps fo st ops) := by
  induction ops generalizing st with
  | nil => exact h
  | cons op rest ih =>
    cases op with
    | setF n => exact ih (exclusive_trackSet h)
    | delF n => exact ih (exclusive_trackDel h)

/-! ## Claim theorems -/

/-- C1: after `_clear_tracked_fields` on an instance whose deleted-field set
is non-empty (and whose modified set is empty), `_combine_tracked_fields`
does *not* return two empty sets: the second guard of
`_clear_tracked_fields` re-tests the just-cleared `_modified_fields` instead
of `_deleted_fields`, so the deleted set survives the clear. -/
theorem c1_clear_then_combine_not_empty :
    combineTrackedFields (clearTracked (.mk (some []) (some ["x"]) [])) = ([], ["x"]) ∧
    combineTrackedFields (clearTracked (.mk (some []) (some ["x"]) [])) ≠ ([], []) := by
  refine ⟨rfl, ?_⟩
  decide

/-- C4: over any finite sequence of field set/delete operations on a fresh
instance, no declared field name is ever in both the modified and the
deleted set of the tracker at once. -/
theorem c4_modified_deleted_exclusive (fieldOrder : List String)
    (ops : List FieldOp) (n : String)
    (h : n ∈ (applyOps fieldOrder ⟨none, none⟩ ops).modified.getD []) :
    n ∉ (applyOps fieldOrder ⟨none, none⟩ ops).deleted.getD [] := by
  refine exclusive_applyOps ?_ n h
  intro m hm
  simp at hm

theorem c4_exclusive_witness :
    "a" ∉ (applyOps ["a"] ⟨none, none⟩ [.delF "a", .setF "a"]).deleted.getD [] :=
  c4_modified_deleted_exclusive ["a"] [.delF "a", .setF "a"] "a" (by decide)

/-- C7 counterexample: `delete` on an already-deleted document (with a
primary key) does not raise — it issues a second `delete_one` and returns
normally, where the claim says it raises instead. -/
theorem c7_delete_twice_issues_second_delete :
    delete ⟨.deleted, some (.vOpaque 1), .mk none none []⟩ =
      .ok (⟨.deleted, some (.vOpaque 1), .mk none none []⟩, [.deleteOne]) := rfl

/-- C7 (amended): once a document is in the `deleted` state, `save` raises a
lifecycle error; `delete`, however, does not raise when a primary key is
present — it issues another store deletion and leaves the state `deleted`. -/
theorem c7_deleted_lifecycle (d : MongoDoc) (fullUpdate : Bool)
    (h : d.state = .deleted) :
    save d fullUpdate = .error "The document has been deleted." ∧
    (∀ pk, d.pk = some pk →
      delete d = .ok (⟨.deleted, d.pk, clearTracked d.tracker⟩, [.deleteOne])) := by
  constructor
  · simp [save, h]
  · intro pk hpk
    simp [delete, h, hpk]

theorem c7_deleted_lifecycle_witness :
    save ⟨.deleted, some (.vOpaque 1), .mk none none []⟩ false =
      .error "The document has been deleted." ∧
    delete ⟨.deleted, some (.vOpaque 1), .mk none none []⟩ =
      .ok (⟨.deleted, some (.vOpaque 1),
            clearTracked (.mk none none [])⟩, [.deleteOne]) := by
  have h := c7_deleted_lifecycle ⟨.deleted, some (.vOpaque 1), .mk none none []⟩ false rfl
  exact ⟨h.1, h.2 (.vOpaque 1) rfl⟩

/-- C8: converting a value that is already a materialized instance of the
nested model short-circuits to its clean data marked pre-validated, and the
subsequent validation pass performs zero checks on it (no type check, no
per-field validator). -/
theorem c8_prevalidated_skips_checks (a : FieldAttrs) (mid : Nat)
    (fields : List (String × FieldSpec)) (data : List (String × PyVal)) :
    convertField (.embeddedF a mid fields) (.vInst mid data) = .ok (.vDoc true data) ∧
    validateField (.embeddedF a mid fields) (.vDoc true data) = .ok 0 := by
  constructor
  · simp [convertField]
  · simp [validateField]

/-- C9: when dot-path resolution reaches a plain (non-array) `ListField` and
the next segment is a numeric index or a positional-update placeholder, the
resolver returns the wildcard `AnyField` and never raises. -/
theorem c9_plain_list_numeric_segment_any (a : FieldAttrs) (key : String)
    (rest : List String)
    (h : (pyIsDigit key || isArrayPlaceholder key) = true) :
    parseDotKeys (.listF a) (key :: rest) = .ok anyFieldSpec := by
  simp [parseDotKeys, h]

theorem c9_plain_list_witness :
    parseDotKeys (.listF ⟨"tags", false, none, none, none⟩) ["0"] = .ok anyFieldSpec ∧
    parseDotKeys (.listF ⟨"tags", false, none, none, none⟩) ["$[elem]", "x"] = .ok anyFieldSpec :=
  ⟨c9_plain_list_numeric_segment_any _ "0" [] (by decide),
   c9_plain_list_numeric_segment_any _ "$[elem]" ["x"] (by decide)⟩

/-- C10: when assigning a declared field a value whose conversion or
validation fails, the clean data is left unchanged, but the field name has
already been added to the modified set and discarded from the deleted set by
the time the error propagates. -/
theorem c10_rejected_set_tracker_updated (fieldOrder : List String)
    (fs : FieldSpec) (attrName : String) (st : InstState) (v : PyVal) (e : String)
    (hdecl : attrName ∈ fieldOrder)
    (herr : (setAttr fieldOrder fs attrName st v).2 = .error e) :
    (setAttr fieldOrder fs attrName st v).1.data = st.data ∧
    attrName ∈ (setAttr fieldOrder fs attrName st v).1.tracker.modified.getD [] ∧
    attrName ∉ (setAttr fieldOrder fs attrName st v).1.tracker.deleted.getD [] := by
  unfold setAttr at herr ⊢
  cases hfs : fieldSet fs st.data v with
  | ok data' =>
    rw [hfs] at herr
    simp at herr
  | error e' =>
    refine ⟨rfl, ?_, ?_⟩
    · simp [trackSet, hdecl, mem_setAdd]
    · simp [trackSet, hdecl, mem_setDiscard]

theorem c10_rejected_set_witness :
    (setAttr ["a"] (.leaf ⟨"a", false, none, none, none⟩ .intK) "a"
      ⟨⟨none, none⟩, []⟩ (.vStr "oops")).1.data = ([] : List (String × PyVal)) ∧
    "a" ∈ (setAttr ["a"] (.leaf ⟨"a", false, none, none, none⟩ .intK) "a"
      ⟨⟨none, none⟩, []⟩ (.vStr "oops")).1.tracker.modified.getD [] ∧
    "a" ∉ (setAttr ["a"] (.leaf ⟨"a", false, none, none, none⟩ .intK) "a"
      ⟨⟨none, none⟩, []⟩ (.vStr "oops")).1.tracker.deleted.getD [] :=
  c10_rejected_set_tracker_updated ["a"] (.leaf ⟨"a", false, none, none, none⟩ .intK)
    "a" ⟨⟨none, none⟩, []⟩ (.vStr "oops") "type mismatch" (by decide)
    (by simp [setAttr, fieldSet, convertField, rvStore, validateField, baseConvert, validateBase,
      leafExpects, Bind.bind, Except.bind, Functor.map, Except.map, Pure.pure, Except.pure])

/-- C5: constructing an instance from `{'b': 1}` and then assigning `a = 2`
leaves `to_dict` listing `b` before `a` — assignment order, not the declared
field order `['a', 'b']` that `to_dict`'s docstring promises: a field absent
at construction is appended at the end of `_data` when later assigned. -/
theorem c5_to_dict_assignment_order :
    (fromDirtyData 0 c5Fields (.vDoc false [("b", .vInt 1)]) >>= fun d =>
      fieldSet (.leaf ⟨"a", false, none, none, none⟩ .intK) d (.vInt 2)) =
      .ok [("b", .vInt 1), ("a", .vInt 2)] ∧
    ([("b", PyVal.vInt 1), ("a", PyVal.vInt 2)]).map Prod.fst ≠ c5Fields.map Prod.fst := by
  constructor
  · simp [c5Fields, fromDirtyData, fieldSet, convertField, convertEmbedded, convertFields, rvStore,
      validateField, validateFields, validateBase, baseConvert, leafExpects, dictGet, dictSet,
      addExtras, rootAttrs, isMapping, FieldSpec.attrs,
      Bind.bind, Except.bind, Functor.map, Except.map, Pure.pure, Except.pure]
  · decide

/-- C6 counterexample: aliasing field `a` to store key `"b"` while a field
`b` is also declared passes `_process_meta` (only duplicates *within* the
alias target list are checked), although the resulting declared-name →
store-key map sends both `a` and `b` to `"b"` — not injective. -/
theorem c6_alias_collision_not_rejected :
    processMetaAliases ["a", "b"] [("a", "b")] = .ok [("a", "b"), ("b", "b")] ∧
    ¬ ([("a", "b"), ("b", "b")].map Prod.snd).Nodup := by
  refine ⟨rfl, ?_⟩
  decide

/-- C6 (amended): provided every aliased field is declared, `_process_meta`
succeeds exactly when the alias target list has no duplicates; a collision
between an alias target and another field's un-aliased declared name is not
detected. -/
theorem c6_alias_duplicate_target_check (declared : List String)
    (aliases : List (String × String))
    (h : ∀ p ∈ aliases, p.1 ∈ declared) :
    (∃ m, processMetaAliases declared aliases = .ok m) ↔
      (aliases.map Prod.snd).Nodup := by
  have hall : aliases.all (fun p => declared.contains p.1) = true := by
    rw [List.all_eq_true]
    intro p hp
    simpa using h p hp
  by_cases hn : (aliases.map Prod.snd).Nodup
  · have hd : (aliases.map Prod.snd).dedup = aliases.map Prod.snd :=
      List.dedup_eq_self.2 hn
    have hlen : aliases.length = ((aliases.map Prod.snd).dedup).length := by
      rw [hd, List.length_map]
    unfold processMetaAliases
    rw [if_neg (fun hne => hne hlen), if_pos hall]
    exact iff_of_true ⟨_, rfl⟩ hn
  · have hlen : aliases.length ≠ ((aliases.map Prod.snd).dedup).length := by
      intro he
      apply hn
      have hsub := List.dedup_sublist (aliases.map Prod.snd)
      have heq : (aliases.map Prod.snd).dedup = aliases.map Prod.snd :=
        hsub.eq_of_length (by rw [← he, List.length_map])
      rw [← heq]
      exact List.nodup_dedup _
    unfold processMetaAliases
    rw [if_pos hlen]
    simp [hn]

theorem c6_alias_check_witness :
    ∃ m, processMetaAliases ["a", "b"] [("a", "c")] = Except.ok m :=
  (c6_alias_duplicate_target_check ["a", "b"] [("a", "c")] (by decide)).2 (by decide)

/-- C2: `_build_indexes` is not idempotent for mapping-form index
specifications: the first run succeeds (creating the declared index, one
store mutation, sparing `_id_`), but `normalize_indexes` pops `'key'` out of
the very dict stored in `Meta.indexes`, so the second run raises `KeyError`
instead of completing with zero mutations. -/
theorem c2_build_indexes_twice_raises :
    buildIndexes c2Declared c2Store =
      .ok ([.mapping [("unique", .b true)]],
           c2Store ++ [[("key", .lst [.pair "a" 1]), ("v", .i 2),
                        ("name", .s "a_1"), ("unique", .b true)]], 1) ∧
    buildIndexes [.mapping [("unique", .b true)]]
      (c2Store ++ [[("key", .lst [.pair "a" 1]), ("v", .i 2),
                    ("name", .s "a_1"), ("unique", .b true)]]) =
      .error "KeyError: key" := by
  exact ⟨rfl, rfl⟩

/-! ## The conversion fixed point (C3) -/

/-- C3 counterexample: with a (perfectly legal) non-idempotent converter
`incr` attached to an int field, the raw input `{'a': 0}` is accepted
(conversion and validation succeed), but re-running `convert` on the clean
data increments again: `convert(convert(raw)) = {'a': 2} ≠ {'a': 1}`. -/
theorem c3_convert_not_fixed_point :
    convertField (.embeddedF rootAttrs 0 [("a", .leaf ⟨"a", false, none, some incr, none⟩ .intK)])
      (.vDoc false [("a", .vInt 0)]) = .ok (.vDoc false [("a", .vInt 1)]) ∧
    validateField (.embeddedF rootAttrs 0 [("a", .leaf ⟨"a", false, none, some incr, none⟩ .intK)])
      (.vDoc false [("a", .vInt 1)]) = .ok 2 ∧
    convertField (.embeddedF rootAttrs 0 [("a", .leaf ⟨"a", false, none, some incr, none⟩ .intK)])
      (.vDoc false [("a", .vInt 1)]) = .ok (.vDoc false [("a", .vInt 2)]) ∧
    PyVal.vDoc false [("a", PyVal.vInt 2)] ≠ PyVal.vDoc false [("a", PyVal.vInt 1)] := by
  refine ⟨?_, ?_, ?_, ?_⟩
  · simp [convertField, convertEmbedded, convertFields, rvStore, baseConvert, incr, dictGet, dictSet,
      addExtras, rootAttrs, FieldSpec.attrs,
      Bind.bind, Except.bind, Functor.map, Except.map, Pure.pure, Except.pure]
  · simp [validateField, validateFields, validateBase, leafExpects, isMapping, dictGet,
      rootAttrs, FieldSpec.attrs,
      Bind.bind, Except.bind, Functor.map, Except.map, Pure.pure, Except.pure]
  · simp [convertField, convertEmbedded, convertFields, rvStore, baseConvert, incr, dictGet, dictSet,
      addExtras, rootAttrs, FieldSpec.attrs,
      Bind.bind, Except.bind, Functor.map, Except.map, Pure.pure, Except.pure]
  · simp

/-- With no converter attached, `Field.convert` is the identity on present
values. -/
theorem baseConvert_of_ne_missing (a : FieldAttrs) (v : PyVal)
    (hconv : a.converter = none) (hv : v ≠ .vMissing) :
    baseConvert a v = v := by
  cases v <;> simp [baseConvert, hconv] at hv ⊢

/-- With no converter, converting the missing sentinel materializes the
default (or stays missing). -/
theorem baseConvert_missing_none (a : FieldAttrs) (hconv : a.converter = none) :
    baseConvert a .vMissing = a.default.getD .vMissing := by
  cases hd : a.default with
  | none => simp [baseConvert, hconv, hd]
  | some d => cases d <;> simp [baseConvert, hconv, hd]

/-- Present values convert through the converter alone. -/
theorem baseConvert_of_ne_missing_conv (a : FieldAttrs) (v : PyVal)
    (hv : v ≠ .vMissing) :
    baseConvert a v = (match a.converter with | some f => f v | none => v) := by
  cases v <;> simp [baseConvert] at hv ⊢ <;> cases a.converter <;> rfl

/-- `Field.convert` is idempotent when the attached converter is. -/
theorem baseConvert_idem (a : FieldAttrs) (h : ConvOk a.converter) (v : PyVal) :
    baseConvert a (baseConvert a v) = baseConvert a v := by
  by_cases hv : v = .vMissing
  · subst hv
    cases hd : a.default with
    | none =>
      have hbm : baseConvert a .vMissing = .vMissing := by
        cases hc : a.converter <;> simp [baseConvert, hd, hc]
      rw [hbm, hbm]
    | some d =>
      by_cases hdm : d = .vMissing
      · subst hdm
        have hbm : baseConvert a .vMissing = .vMissing := by
          cases hc : a.converter <;> simp [baseConvert, hd, hc]
        rw [hbm, hbm]
      · cases hc : a.converter with
        | none =>
          have h1 : baseConvert a .vMissing = d := by
            cases d <;> simp [baseConvert, hd, hc] at hdm ⊢
          rw [h1, baseConvert_of_ne_missing a d hc hdm]
        | some f =>
          have h1 : baseConvert a .vMissing = f d := by
            cases d <;> simp [baseConvert, hd, hc] at hdm ⊢
          rw [h1]
          obtain ⟨hfm, hff⟩ := (show ConvOk (some f) from hc ▸ h) d hdm
          rw [baseConvert_of_ne_missing_conv a (f d) hfm, hc]
          exact hff
  · cases hc : a.converter with
    | none =>
      rw [baseConvert_of_ne_missing a v hc hv, baseConvert_of_ne_missing a v hc hv]
    | some f =>
      have h1 : baseConvert a v = f v := by
        rw [baseConvert_of_ne_missing_conv a v hv, hc]
      obtain ⟨hfm, hff⟩ := (show ConvOk (some f) from hc ▸ h) v hv
      rw [h1, baseConvert_of_ne_missing_conv a (f v) hfm, hc]
      exact hff

/-! ### Dictionary and key lemmas -/

theorem dictSet_of_not_mem (l : List (String × PyVal)) (k : String) (v : PyVal)
    (h : k ∉ l.map Prod.fst) : dictSet l k v = l ++ [(k, v)] := by
  induction l with
  | nil => rfl
  | cons p rest ih =>
    simp only [List.map_cons, List.mem_cons] at h
    push_neg at h
    simp [dictSet, Ne.symm h.1, ih h.2]

theorem dictGet_of_not_mem (l : List (String × PyVal)) (k : String)
    (h : k ∉ l.map Prod.fst) : dictGet l k = .vMissing := by
  induction l with
  | nil => rfl
  | cons p rest ih =>
    simp only [List.map_cons, List.mem_cons] at h
    push_neg at h
    simp [dictGet, Ne.symm h.1, ih h.2]

theorem dictGet_append_of_not_mem_right (l1 l2 : List (String × PyVal)) (k : String)
    (h : k ∉ l2.map Prod.fst) : dictGet (l1 ++ l2) k = dictGet l1 k := by
  induction l1 with
  | nil => simp [dictGet_of_not_mem l2 k h, dictGet]
  | cons p rest ih =>
    by_cases hk : p.1 = k
    · simp [dictGet, hk]
    · simp [dictGet, hk, ih]

theorem keysNodupS_iff (l : List String) : keysNodupS l = true ↔ l.Nodup := by
  induction l with
  | nil => simp [keysNodupS]
  | cons k rest ih => simp [keysNodupS, ih, List.nodup_cons]

theorem plain_dictGet (obj : List (String × PyVal)) (k : String)
    (h : plainEntries obj = true) : plainVal (dictGet obj k) = true := by
  induction obj with
  | nil => rfl
  | cons p rest ih =>
    obtain ⟨p1, p2⟩ := p
    rw [plainEntries] at h
    rw [Bool.and_eq_true] at h
    by_cases hk : p1 = k
    · simpa [dictGet, hk] using h.1
    · simpa [dictGet, hk] using ih h.2

theorem plainEntries_append (l1 l2 : List (String × PyVal)) :
    plainEntries (l1 ++ l2) = (plainEntries l1 && plainEntries l2) := by
  induction l1 with
  | nil => simp [plainEntries]
  | cons p rest ih =>
    obtain ⟨p1, p2⟩ := p
    simp [plainEntries, ih, Bool.and_assoc]

/-! ### `fieldsOut` lemmas -/

/-- The store names of a declared field list. -/
def storeNames (fields : List (String × FieldSpec)) : List String :=
  fields.map (fun p => p.2.attrs.name)

theorem fixableFields_storeNames (fields : List (String × FieldSpec))
    (hff : FixableFields fields) : storeNames fields = fields.map Prod.fst := by
  induction fields with
  | nil => rfl
  | cons p rest ih =>
    obtain ⟨p1, p2⟩ := p
    rw [FixableFields] at hff
    simp [storeNames, List.map_cons] at ih ⊢
    exact ⟨hff.1, ih hff.2.2⟩

theorem rvStore_of_ne (acc : List (String × PyVal)) (name : String) (y : PyVal)
    (hy : y ≠ .vMissing) : rvStore acc name y = dictSet acc name y := by
  cases y <;> simp [rvStore] at hy ⊢

theorem singOut_of_ne (name : String) (y : PyVal) (hy : y ≠ .vMissing) :
    singOut name y = [(name, y)] := by
  cases y <;> simp [singOut] at hy ⊢

theorem singOut_keys (name : String) (y : PyVal) :
    ∀ k ∈ (singOut name y).map Prod.fst, k = name := by
  cases y <;> simp [singOut]

theorem fieldsOut_keys (fields : List (String × FieldSpec))
    (obj part : List (String × PyVal)) (hc : fieldsOut fields obj = .ok part) :
    ∀ k ∈ part.map Prod.fst, k ∈ storeNames fields := by
  induction fields generalizing part with
  | nil =>
    rw [fieldsOut] at hc
    cases hc
    simp
  | cons p rest ih =>
    obtain ⟨n, f⟩ := p
    rw [fieldsOut] at hc
    simp only [Bind.bind, Except.bind] at hc
    cases hy : convertField f (dictGet obj n) with
    | error e => rw [hy] at hc; cases hc
    | ok y =>
      rw [hy] at hc
      cases hr : fieldsOut rest obj with
      | error e => rw [hr] at hc; cases hc
      | ok r =>
        rw [hr] at hc
        cases hc
        intro k hk
        rw [List.map_append, List.mem_append] at hk
        rcases hk with hk | hk
        · have := singOut_keys f.attrs.name y k hk
          simp [storeNames, this]
        · have := ih r hr k hk
          simp only [storeNames, List.map_cons, List.mem_cons]
          exact Or.inr (by simpa [storeNames] using this)

theorem fieldsOut_keys_nodup (fields : List (String × FieldSpec))
    (obj part : List (String × PyVal))
    (hnd : (storeNames fields).Nodup) (hc : fieldsOut fields obj = .ok part) :
    (part.map Prod.fst).Nodup := by
  induction fields generalizing part with
  | nil =>
    rw [fieldsOut] at hc
    cases hc
    simp
  | cons p rest ih =>
    obtain ⟨n, f⟩ := p
    rw [fieldsOut] at hc
    simp only [Bind.bind, Except.bind] at hc
    cases hy : convertField f (dictGet obj n) with
    | error e => rw [hy] at hc; cases hc
    | ok y =>
      rw [hy] at hc
      cases hr : fieldsOut rest obj with
      | error e => rw [hr] at hc; cases hc
      | ok r =>
        rw [hr] at hc
        cases hc
        rw [storeNames, List.map_cons, List.nodup_cons] at hnd
        have hrest := ih r hnd.2 hr
        by_cases hym : y = .vMissing
        · subst hym
          simpa [singOut] using hrest
        · rw [singOut_of_ne _ _ hym]
          simp only [List.singleton_append, List.map_cons, List.nodup_cons]
          exact ⟨fun hmem => hnd.1 (by
            simpa [storeNames] using fieldsOut_keys rest obj r hr _ hmem), hrest⟩

theorem fieldsOut_get (fields : List (String × FieldSpec))
    (obj part : List (String × PyVal))
    (hnd : (storeNames fields).Nodup) (hc : fieldsOut fields obj = .ok part) :
    ∀ p ∈ fields, ∃ y, convertField p.2 (dictGet obj p.1) = .ok y ∧
      dictGet part p.2.attrs.name = y := by
  induction fields generalizing part with
  | nil => intro p hp; cases hp
  | cons q rest ih =>
    obtain ⟨n, f⟩ := q
    rw [fieldsOut] at hc
    simp only [Bind.bind, Except.bind] at hc
    cases hy : convertField f (dictGet obj n) with
    | error e => rw [hy] at hc; cases hc
    | ok y =>
      rw [hy] at hc
      cases hr : fieldsOut rest obj with
      | error e => rw [hr] at hc; cases hc
      | ok r =>
        rw [hr] at hc
        cases hc
        rw [storeNames, List.map_cons, List.nodup_cons] at hnd
        intro p hp
        rcases List.mem_cons.1 hp with rfl | hp
        · refine ⟨y, hy, ?_⟩
          by_cases hym : y = .vMissing
          · subst hym
            simp only [singOut, List.nil_append]
            exact dictGet_of_not_mem r _ (fun hmem =>
              hnd.1 (by simpa [storeNames] using fieldsOut_keys rest obj r hr _ hmem))
          · rw [singOut_of_ne _ _ hym]
            simp [dictGet]
        · obtain ⟨y', hy', hget⟩ := ih r hnd.2 hr p hp
          refine ⟨y', hy', ?_⟩
          have hne : f.attrs.name ≠ p.2.attrs.name := by
            intro he
            exact hnd.1 (he ▸ (by
              simp only [storeNames, List.mem_map]
              exact ⟨p, hp, rfl⟩))
          by_cases hym : y = .vMissing
          · subst hym
            simpa [singOut] using hget
          · rw [singOut_of_ne _ _ hym]
            simpa [dictGet, hne] using hget

/-- With duplicate-free store keys that are fresh for the accumulator, the
accumulator-style field loop of `EmbeddedField.convert` computes
`fieldsOut`. -/
theorem convertFields_eq (fields : List (String × FieldSpec))
    (obj : List (String × PyVal)) (acc : List (String × PyVal))
    (hnd : (storeNames fields).Nodup)
    (hfresh : ∀ p ∈ fields, p.2.attrs.name ∉ acc.map Prod.fst) :
    convertFields fields obj acc = (fieldsOut fields obj).map (fun r => acc ++ r) := by
  induction fields generalizing acc with
  | nil => simp [convertFields, fieldsOut, Except.map]
  | cons q rest ih =>
    obtain ⟨n, f⟩ := q
    rw [convertFields, fieldsOut]
    simp only [Bind.bind, Except.bind]
    cases hy : convertField f (dictGet obj n) with
    | error e => simp [Except.map]
    | ok y =>
      dsimp only
      rw [storeNames, List.map_cons, List.nodup_cons] at hnd
      have hfhead := hfresh (n, f) (List.mem_cons_self _ _)
      by_cases hym : y = .vMissing
      · subst hym
        rw [show rvStore acc f.attrs.name .vMissing = acc from rfl,
          ih acc hnd.2 (fun p hp => hfresh p (List.mem_cons_of_mem _ hp))]
        cases hr : fieldsOut rest obj with
        | error e => simp [Except.map]
        | ok r => simp [Except.map, singOut]
      · rw [rvStore_of_ne _ _ _ hym, dictSet_of_not_mem acc _ _ hfhead]
        rw [ih (acc ++ [(f.attrs.name, y)]) hnd.2 ?hfr]
        case hfr =>
          intro p hp
          simp only [List.map_append, List.mem_append, List.map_cons, List.map_nil,
            List.mem_singleton]
          push_neg
          refine ⟨hfresh p (List.mem_cons_of_mem _ hp), ?_⟩
          intro he
          have hmem : p.2.attrs.name ∈ storeNames rest := by
            simp only [storeNames, List.mem_map]
            exact ⟨p, hp, rfl⟩
          rw [he] at hmem
          exact hnd.1 hmem
        cases hr : fieldsOut rest obj with
        | error e => simp [Except.map]
        | ok r => simp [Except.map, singOut_of_ne _ _ hym]

/-- `addExtras` appends exactly the undeclared entries when the input keys
are duplicate-free and undeclared keys are fresh for `rv`. -/
theorem addExtras_eq (decl : List String) (obj rv : List (String × PyVal))
    (hnd : (obj.map Prod.fst).Nodup)
    (hfresh : ∀ p ∈ obj, p.1 ∉ decl → p.1 ∉ rv.map Prod.fst) :
    addExtras decl obj rv = rv ++ obj.filter (fun p => !(decl.contains p.1)) := by
  induction obj generalizing rv with
  | nil => simp [addExtras]
  | cons p rest ih =>
    obtain ⟨k, v⟩ := p
    rw [List.map_cons, List.nodup_cons] at hnd
    cases hco : decl.contains k with
    | true =>
      have hkd : k ∈ decl := by simpa using hco
      have hstep : addExtras decl ((k, v) :: rest) rv = addExtras decl rest rv := by
        simp [addExtras, hkd]
      rw [hstep, ih rv hnd.2 (fun q hq hqd => hfresh q (List.mem_cons_of_mem _ hq) hqd)]
      simp [List.filter_cons, hkd]
    | false =>
      have hknd : k ∉ decl := by simpa using hco
      have hkrv : k ∉ rv.map Prod.fst := hfresh (k, v) (List.mem_cons_self _ _) hknd
      have hstep : addExtras decl ((k, v) :: rest) rv =
          addExtras decl rest (dictSet rv k v) := by
        simp [addExtras, hknd]
      rw [hstep, dictSet_of_not_mem rv _ _ hkrv]
      rw [ih (rv ++ [(k, v)]) hnd.2 ?hfr]
      case hfr =>
        intro q hq hqd
        simp only [List.map_append, List.mem_append, List.map_cons, List.map_nil,
          List.mem_singleton]
        push_neg
        refine ⟨hfresh q (List.mem_cons_of_mem _ hq) hqd, ?_⟩
        intro he
        apply hnd.1
        rw [← he]
        exact List.mem_map.2 ⟨q, hq, rfl⟩
      simp [List.filter_cons, hknd, List.append_assoc]

theorem plainVal_doc (sk : Bool) (entries : List (String × PyVal))
    (h : plainVal (.vDoc sk entries) = true) :
    (entries.map Prod.fst).Nodup ∧ plainEntries entries = true := by
  rw [plainVal] at h
  simp only [Bool.and_eq_true] at h
  exact ⟨(keysNodupS_iff _).1 h.1.2, h.2⟩

theorem plainVal_list (xs : List PyVal) (h : plainVal (.vList xs) = true) :
    plainListVals xs = true := by
  rwa [plainVal] at h

theorem plainListVals_cons (x : PyVal) (xs : List PyVal)
    (h : plainListVals (x :: xs) = true) :
    plainVal x = true ∧ plainListVals xs = true := by
  rw [plainListVals] at h
  simpa [Bool.and_eq_true] using h

theorem fixableFields_name_mem (fields : List (String × FieldSpec))
    (hff : FixableFields fields) : ∀ p ∈ fields, p.2.attrs.name = p.1 := by
  induction fields with
  | nil => intro p hp; cases hp
  | cons q rest ih =>
    obtain ⟨n, f⟩ := q
    rw [FixableFields] at hff
    intro p hp
    rcases List.mem_cons.1 hp with rfl | hp
    · exact hff.1
    · exact ih hff.2.2 p hp

theorem fixableFields_mem (fields : List (String × FieldSpec))
    (hff : FixableFields fields) : ∀ p ∈ fields, Fixable p.2 := by
  induction fields with
  | nil => intro p hp; cases hp
  | cons q rest ih =>
    obtain ⟨n, f⟩ := q
    rw [FixableFields] at hff
    intro p hp
    rcases List.mem_cons.1 hp with rfl | hp
    · exact hff.2.1
    · exact ih hff.2.2 p hp

theorem filter_keys_not_decl (decl : List String) (entries : List (String × PyVal)) :
    ∀ k ∈ (entries.filter (fun p => !(decl.contains p.1))).map Prod.fst, k ∉ decl := by
  intro k hk
  rw [List.mem_map] at hk
  obtain ⟨q, hq, rfl⟩ := hk
  rw [List.mem_filter] at hq
  simpa using hq.2

theorem plainEntries_mem (obj : List (String × PyVal)) (h : plainEntries obj = true) :
    ∀ p ∈ obj, plainVal p.2 = true := by
  induction obj with
  | nil => intro p hp; cases hp
  | cons q rest ih =>
    obtain ⟨k, v⟩ := q
    rw [plainEntries, Bool.and_eq_true] at h
    intro p hp
    rcases List.mem_cons.1 hp with rfl | hp
    · exact h.1
    · exact ih h.2 p hp

mutual

/-- Conversion is a fixed point on its own output, under `Fixable` and for
plain inputs. -/
theorem convert_fixed (fs : FieldSpec) (v y : PyVal) (hfix : Fixable fs)
    (hp : plainVal v = true) (hc : convertField fs v = .ok y) :
    convertField fs y = .ok y := by
  cases fs with
  | leaf a k =>
    rw [Fixable] at hfix
    rw [convertField] at hc ⊢
    rw [Except.ok.injEq] at hc
    rw [← hc, baseConvert_idem a hfix v]
  | listF a =>
    rw [Fixable] at hfix
    rw [convertField] at hc ⊢
    rw [Except.ok.injEq] at hc
    rw [← hc, baseConvert_idem a hfix v]
  | dictF a =>
    rw [Fixable] at hfix
    rw [convertField] at hc ⊢
    rw [Except.ok.injEq] at hc
    rw [← hc, baseConvert_idem a hfix v]
  | arrayF a elem =>
    rw [Fixable] at hfix
    obtain ⟨hcnone, hdef, hfel⟩ := hfix
    rw [convertField] at hc
    by_cases hv : v = .vMissing
    · subst hv
      rw [baseConvert_missing_none a hcnone] at hc
      cases hd : a.default with
      | none =>
        rw [hd] at hc
        simp only [Option.getD] at hc
        rw [Except.ok.injEq] at hc
        subst hc
        rw [convertField, baseConvert_missing_none a hcnone, hd]
        simp
      | some d =>
        rw [hd] at hc
        simp only [Option.getD] at hc
        cases d with
        | vMissing =>
          rw [Except.ok.injEq] at hc
          subst hc
          rw [convertField, baseConvert_missing_none a hcnone, hd]
          simp
        | vList xs =>
          simp only [Bind.bind, Except.bind] at hc
          cases hys : convertElems elem xs with
          | error e => rw [hys] at hc; cases hc
          | ok ys =>
            rw [hys] at hc
            simp only [Pure.pure, Except.pure, Except.ok.injEq] at hc
            subst hc
            have hpl : plainListVals xs = true :=
              plainVal_list xs (hdef (.vList xs) hd)
            have hre := elems_fixed elem xs ys hfel hpl hys
            rw [convertField,
              baseConvert_of_ne_missing a (.vList ys) hcnone (by simp)]
            simp only [Bind.bind, Except.bind]
            rw [hre]
            simp [Pure.pure, Except.pure]
        | vNone => cases hc
        | vInt n => cases hc
        | vStr s => cases hc
        | vBool b => cases hc
        | vDoc sk entries => cases hc
        | vInst mid data => cases hc
        | vOpaque oid => cases hc
    · rw [baseConvert_of_ne_missing a v hcnone hv] at hc
      cases v with
      | vMissing => exact absurd rfl hv
      | vList xs =>
        simp only [Bind.bind, Except.bind] at hc
        cases hys : convertElems elem xs with
        | error e => rw [hys] at hc; cases hc
        | ok ys =>
          rw [hys] at hc
          simp only [Pure.pure, Except.pure, Except.ok.injEq] at hc
          subst hc
          have hpl : plainListVals xs = true := plainVal_list xs hp
          have hre := elems_fixed elem xs ys hfel hpl hys
          rw [convertField,
            baseConvert_of_ne_missing a (.vList ys) hcnone (by simp)]
          simp only [Bind.bind, Except.bind]
          rw [hre]
          simp [Pure.pure, Except.pure]
      | vNone => cases hc
      | vInt n => cases hc
      | vStr s => cases hc
      | vBool b => cases hc
      | vDoc sk entries => cases hc
      | vInst mid data => rw [plainVal] at hp; cases hp
      | vOpaque oid => cases hc
  | embeddedF a mid fields =>
    rw [Fixable] at hfix
    obtain ⟨hcnone, hdef, hndS, hff⟩ := hfix
    have hnd : (storeNames fields).Nodup := by
      rw [fixableFields_storeNames fields hff]
      exact (keysNodupS_iff _).1 hndS
    cases v with
    | vMissing =>
      simp only [convertField] at hc
      rw [baseConvert_missing_none a hcnone] at hc
      cases hd : a.default with
      | none =>
        rw [hd] at hc
        simp only [Option.getD] at hc
        rw [convertEmbedded] at hc
        rw [Except.ok.injEq] at hc
        subst hc
        simp only [convertField]
        rw [baseConvert_missing_none a hcnone, hd]
        simp [convertEmbedded]
      | some d =>
        rw [hd] at hc
        simp only [Option.getD] at hc
        cases d with
        | vMissing =>
          rw [convertEmbedded] at hc
          rw [Except.ok.injEq] at hc
          subst hc
          simp only [convertField]
          rw [baseConvert_missing_none a hcnone, hd]
          simp [convertEmbedded]
        | vDoc sk entries =>
          have hpd := plainVal_doc sk entries (hdef (.vDoc sk entries) hd)
          obtain ⟨⟨out, rfl⟩, hemb⟩ :=
            embedded_fixed fields sk entries y hff hnd hpd.1 hpd.2 hc
          simp only [convertField]
          rw [baseConvert_of_ne_missing a (.vDoc false out) hcnone (by simp)]
          exact hemb
        | vNone => simp [convertEmbedded] at hc
        | vInt n => simp [convertEmbedded] at hc
        | vStr s => simp [convertEmbedded] at hc
        | vBool b => simp [convertEmbedded] at hc
        | vList xs => simp [convertEmbedded] at hc
        | vInst mid2 data => simp [convertEmbedded] at hc
        | vOpaque oid => simp [convertEmbedded] at hc
    | vDoc flag entries =>
      simp only [convertField] at hc
      rw [baseConvert_of_ne_missing a (.vDoc flag entries) hcnone (by simp)] at hc
      have hpd := plainVal_doc flag entries hp
      obtain ⟨⟨out, rfl⟩, hemb⟩ :=
        embedded_fixed fields flag entries y hff hnd hpd.1 hpd.2 hc
      simp only [convertField]
      rw [baseConvert_of_ne_missing a (.vDoc false out) hcnone (by simp)]
      exact hemb
    | vInst mid2 data => rw [plainVal] at hp; cases hp
    | vNone =>
      simp only [convertField] at hc
      rw [baseConvert_of_ne_missing a _ hcnone (by simp)] at hc
      simp [convertEmbedded] at hc
    | vInt n =>
      simp only [convertField] at hc
      rw [baseConvert_of_ne_missing a _ hcnone (by simp)] at hc
      simp [convertEmbedded] at hc
    | vStr s =>
      simp only [convertField] at hc
      rw [baseConvert_of_ne_missing a _ hcnone (by simp)] at hc
      simp [convertEmbedded] at hc
    | vBool b =>
      simp only [convertField] at hc
      rw [baseConvert_of_ne_missing a _ hcnone (by simp)] at hc
      simp [convertEmbedded] at hc
    | vList xs =>
      simp only [convertField] at hc
      rw [baseConvert_of_ne_missing a _ hcnone (by simp)] at hc
      simp [convertEmbedded] at hc
    | vOpaque oid =>
      simp only [convertField] at hc
      rw [baseConvert_of_ne_missing a _ hcnone (by simp)] at hc
      simp [convertEmbedded] at hc
termination_by (sizeOf fs, 0)

/-- Rebuilding an already-rebuilt embedded document reproduces it: the body
of `EmbeddedField.convert` is a fixed point on its own output. -/
theorem embedded_fixed (fields : List (String × FieldSpec)) (flag : Bool)
    (entries : List (String × PyVal)) (y : PyVal)
    (hff : FixableFields fields)
    (hnd : (storeNames fields).Nodup)
    (hobjnd : (entries.map Prod.fst).Nodup)
    (hobj : plainEntries entries = true)
    (hc : convertEmbedded fields (.vDoc flag entries) = .ok y) :
    (∃ out, y = .vDoc false out) ∧ convertEmbedded fields y = .ok y := by
  rw [convertEmbedded] at hc
  simp only [Bind.bind, Except.bind] at hc
  cases hrv : convertFields fields entries [] with
  | error e => rw [hrv] at hc; cases hc
  | ok rv =>
    rw [hrv] at hc
    simp only [Pure.pure, Except.pure, Except.ok.injEq] at hc
    rw [convertFields_eq fields entries [] hnd (by simp)] at hrv
    cases hfo : fieldsOut fields entries with
    | error e => rw [hfo] at hrv; cases hrv
    | ok r =>
      rw [hfo] at hrv
      simp only [Except.map, List.nil_append, Except.ok.injEq] at hrv
      rw [hrv] at hfo
      have hkeys : ∀ k ∈ rv.map Prod.fst, k ∈ fields.map Prod.fst := by
        intro k hk
        have := fieldsOut_keys fields entries rv hfo k hk
        rwa [fixableFields_storeNames fields hff] at this
      have hax := addExtras_eq (fields.map Prod.fst) entries rv hobjnd
        (fun p _ hpd hmem => hpd (hkeys _ hmem))
      rw [hax] at hc
      set extras := entries.filter (fun p => !((fields.map Prod.fst).contains p.1)) with hex
      -- the rebuilt clean document
      subst hc
      refine ⟨⟨rv ++ extras, rfl⟩, ?_⟩
      have hexknd : ∀ k ∈ extras.map Prod.fst, k ∉ fields.map Prod.fst := by
        intro k hk
        exact filter_keys_not_decl _ entries k (hex ▸ hk)
      have hgetout : ∀ p ∈ fields, ∃ yy,
          convertField p.2 (dictGet entries p.1) = .ok yy ∧
          dictGet (rv ++ extras) p.1 = yy := by
        intro p hp
        obtain ⟨yy, hyy, hgetrv⟩ := fieldsOut_get fields entries rv hnd hfo p hp
        rw [fixableFields_name_mem fields hff p hp] at hgetrv
        refine ⟨yy, hyy, ?_⟩
        rw [dictGet_append_of_not_mem_right rv extras p.1 ?hpe]
        · exact hgetrv
        case hpe =>
          intro hmem
          exact hexknd _ hmem (List.mem_map.2 ⟨p, hp, rfl⟩)
      have hfo2 : fieldsOut fields (rv ++ extras) = .ok rv := by
        rw [fieldsOut_fixed fields entries (rv ++ extras) hff hobj hgetout]
        exact hfo
      have houtnd : ((rv ++ extras).map Prod.fst).Nodup := by
        rw [List.map_append, List.nodup_append]
        refine ⟨fieldsOut_keys_nodup fields entries rv hnd hfo, ?_, ?_⟩
        · exact ((List.filter_sublist entries).map Prod.fst).nodup hobjnd
        · intro k hk1 hk2
          exact hexknd k hk2 (hkeys k hk1)
      rw [convertEmbedded]
      simp only [Bind.bind, Except.bind]
      rw [convertFields_eq fields (rv ++ extras) [] hnd (by simp), hfo2]
      simp only [Except.map, List.nil_append]
      have hax2 := addExtras_eq (fields.map Prod.fst) (rv ++ extras) rv houtnd
        (fun p _ hpd hmem => hpd (hkeys _ hmem))
      rw [hax2]
      have hrvfil : rv.filter (fun p => !((fields.map Prod.fst).contains p.1)) = [] := by
        rw [List.filter_eq_nil_iff]
        intro p hp
        have := hkeys p.1 (List.mem_map.2 ⟨p, hp, rfl⟩)
        simp [this]
      have hexfil : extras.filter (fun p => !((fields.map Prod.fst).contains p.1)) = extras := by
        rw [List.filter_eq_self]
        intro p hp
        have := hexknd p.1 (List.mem_map.2 ⟨p, hex ▸ hp, rfl⟩)
        simp [this]
      rw [List.filter_append, hrvfil, hexfil]
      simp [Pure.pure, Except.pure]
termination_by (sizeOf fields, 2)

/-- Re-running the declared-field loop on a document that stores each
field's converted output reproduces the loop's result. -/
theorem fieldsOut_fixed : ∀ (fields : List (String × FieldSpec))
    (obj out : List (String × PyVal)),
    FixableFields fields →
    plainEntries obj = true →
    (∀ p ∈ fields, ∃ yy, convertField p.2 (dictGet obj p.1) = .ok yy ∧
      dictGet out p.1 = yy) →
    fieldsOut fields out = fieldsOut fields obj
  | [], obj, out, _, _, _ => by rw [fieldsOut, fieldsOut]
  | (n, f) :: rest, obj, out, hff, hobj, hget => by
    rw [FixableFields] at hff
    obtain ⟨yy, hyy, hgetout⟩ := hget (n, f) (List.mem_cons_self _ _)
    have hre := convert_fixed f (dictGet obj n) yy hff.2.1
      (plain_dictGet obj n hobj) hyy
    rw [fieldsOut, fieldsOut]
    simp only at hgetout
    rw [hgetout, hre, hyy]
    rw [fieldsOut_fixed rest obj out hff.2.2 hobj
      (fun p hp => hget p (List.mem_cons_of_mem _ hp))]
termination_by fields _ _ _ _ _ => (sizeOf fields, 1)

/-- Re-converting a converted element list reproduces it. -/
theorem elems_fixed : ∀ (elem : FieldSpec) (xs ys : List PyVal),
    Fixable elem → plainListVals xs = true → convertElems elem xs = .ok ys →
    convertElems elem ys = .ok ys
  | elem, [], ys, _, _, hc => by
    rw [convertElems] at hc
    rw [Except.ok.injEq] at hc
    rw [← hc, convertElems]
  | elem, x :: rest, ys, hfix, hp, hc => by
    rw [convertElems] at hc
    simp only [Bind.bind, Except.bind] at hc
    cases hy : convertField elem x with
    | error e => rw [hy] at hc; cases hc
    | ok y =>
      rw [hy] at hc
      cases hr : convertElems elem rest with
      | error e => rw [hr] at hc; cases hc
      | ok ys' =>
        rw [hr] at hc
        simp only [Pure.pure, Except.pure, Except.ok.injEq] at hc
        obtain ⟨hx, hrest⟩ := plainListVals_cons x rest hp
        rw [← hc, convertElems]
        simp only [Bind.bind, Except.bind]
        rw [convert_fixed elem x y hfix hx hy, elems_fixed elem rest ys' hfix hrest hr]
        simp [Pure.pure, Except.pure]
termination_by elem xs _ _ _ _ => (sizeOf elem, 1 + sizeOf xs)

end

/-- C3 (amended): for plain raw mapping data accepted by a schema — provided
every attached converter sits on a primitive field and is idempotent, and no
alias renames a store key — `validate(convert(raw))` succeeds and `convert`
is a fixed point on the resulting clean data.  (The counterexample above
shows the unrestricted claim fails for any non-idempotent converter.) -/
theorem c3_convert_fixed_point (fs : FieldSpec) (raw clean : PyVal)
    (hfix : Fixable fs) (hplain : plainVal raw = true)
    (hconv : convertField fs raw = .ok clean)
    (hval : (validateField fs clean).isOk = true) :
    (validateField fs clean).isOk = true ∧
    convertField fs clean = .ok clean :=
  ⟨hval, convert_fixed fs raw clean hfix hplain hconv⟩

theorem c3_fixed_point_witness :
    (validateField (.embeddedF rootAttrs 0 [("a", .leaf ⟨"a", false, none, none, none⟩ .intK)])
      (.vDoc false [("a", .vInt 3)])).isOk = true ∧
    convertField (.embeddedF rootAttrs 0 [("a", .leaf ⟨"a", false, none, none, none⟩ .intK)])
      (.vDoc false [("a", .vInt 3)]) = .ok (.vDoc false [("a", .vInt 3)]) :=
  c3_convert_fixed_point
    (.embeddedF rootAttrs 0 [("a", .leaf ⟨"a", false, none, none, none⟩ .intK)])
    (.vDoc false [("a", .vInt 3)]) (.vDoc false [("a", .vInt 3)])
    (by simp [Fixable, FixableFields, ConvOk, rootAttrs, keysNodupS, FieldSpec.attrs])
    (by simp [plainVal, plainEntries, keysNodupS])
    (by simp [convertField, convertEmbedded, convertFields, rvStore, baseConvert, dictGet,
      dictSet, addExtras, rootAttrs, FieldSpec.attrs,
      Bind.bind, Except.bind, Functor.map, Except.map, Pure.pure, Except.pure])
    (by simp [validateField, validateFields, validateBase, leafExpects, isMapping, dictGet,
      rootAttrs, FieldSpec.attrs, Except.isOk, Except.toBool,
      Bind.bind, Except.bind, Functor.map, Except.map, Pure.pure, Except.pure])

end Monom
